import Mathlib

/-!
# Verification of the `page_table_multiarch` LoongArch64 adapter and walker

This file is a shallow embedding, in Lean 4, of the LoongArch64
architecture-metadata adapter of the `page_table_multiarch` crate
(`src/arch/loongarch64.rs`) together with a model of the generic
multi-level page-table walker that the crate parameterizes with this
metadata.  The constants (`PWCL_VALUE`, `PWCH_VALUE`, `LEVELS`,
`PA_MAX_BITS`, `VA_MAX_BITS`) and the TLB-flush instruction sequences are
translated directly from the Rust source.  The generic walker
(`translate`, `map`, `unmap`) is not part of the adapter file; it is
modelled from the specification of the crate (see the doc comments of the
individual definitions).

Machine integers are modelled as `Nat`; all the constant values involved
fit comfortably below `2 ^ 32` / `2 ^ 64`, so no wrap-around arithmetic is
needed.
-/

namespace LA64MetaData

/-- PWCL (Page Walk Controller for Lower Half Address Space) CSR value,
from the source: `12 | (9 << 5) | (21 << 10) | (9 << 15)`. -/
def PWCL_VALUE : Nat := 12 ||| (9 <<< 5) ||| (21 <<< 10) ||| (9 <<< 15)

/-- PWCH (Page Walk Controller for Higher Half Address Space) CSR value,
from the source: `30 | (9 << 6)`. -/
def PWCH_VALUE : Nat := 30 ||| (9 <<< 6)

/-- `LEVELS` of the LoongArch64 adapter (source: `const LEVELS: usize = 3`). -/
def LEVELS : Nat := 3

/-- `PA_MAX_BITS` of the LoongArch64 adapter (source: 40). -/
def PA_MAX_BITS : Nat := 40

/-- `VA_MAX_BITS` of the LoongArch64 adapter (source: 40). -/
def VA_MAX_BITS : Nat := 40

/-- Extract the bit field `[lo, lo + width)` of a configuration value. -/
def field (val lo width : Nat) : Nat := (val >>> lo) % 2 ^ width

/-- `PTBase`, bits 4:0 of PWCL: base page size shift. -/
def ptBase : Nat := field PWCL_VALUE 0 5

/-- `PTWidth`, bits 9:5 of PWCL: number of index bits of the leaf page table. -/
def ptWidth : Nat := field PWCL_VALUE 5 5

/-- `Dir1Base`, bits 14:10 of PWCL: starting bit of the lowest directory. -/
def dir1Base : Nat := field PWCL_VALUE 10 5

/-- `Dir1Width`, bits 19:15 of PWCL: index width of the lowest directory. -/
def dir1Width : Nat := field PWCL_VALUE 15 5

/-- `Dir2Base`, bits 24:20 of PWCL. -/
def dir2Base : Nat := field PWCL_VALUE 20 5

/-- `Dir2Width`, bits 29:25 of PWCL (0 = this directory level is disabled). -/
def dir2Width : Nat := field PWCL_VALUE 25 5

/-- `PTEWidth`, bits 31:30 of PWCL. -/
def pteWidth : Nat := field PWCL_VALUE 30 2

/-- `Dir3Base`, bits 5:0 of PWCH: starting bit of the top directory. -/
def dir3Base : Nat := field PWCH_VALUE 0 6

/-- `Dir3Width`, bits 11:6 of PWCH: index width of the top directory. -/
def dir3Width : Nat := field PWCH_VALUE 6 6

/-- `Dir4Base`, bits 17:12 of PWCH. -/
def dir4Base : Nat := field PWCH_VALUE 12 6

/-- `Dir4Width`, bits 23:18 of PWCH (0 = this directory level is disabled). -/
def dir4Width : Nat := field PWCH_VALUE 18 6

/-- `covers base width b`: virtual-address bit `b` lies in the bit range
`[base, base + width)` described by a (base, width) directory field pair. -/
def covers (base width b : Nat) : Bool := decide (base ≤ b) && decide (b < base + width)

/-- Bit `b` of the virtual address is consumed by the page offset or by one
of the active translation levels configured in PWCL/PWCH. -/
def coveredBit (b : Nat) : Bool :=
  covers 0 ptBase b || covers ptBase ptWidth b ||
  covers dir1Base dir1Width b || covers dir3Base dir3Width b

end LA64MetaData

/-! ## Model of the emitted TLB-invalidation instruction sequences

`LA64MetaData::flush_tlb` emits inline assembly.  The instructions are
modelled as data; the effect of an `invtlb` operation on the contents of
the translation cache is modelled from the LoongArch manual excerpts
quoted verbatim in the source comments (op `0x0`: clear all entries;
op `0x5`: clear all entries with `G = 0`, matching ASID and matching VA,
with the ASID operand left to the current address space by passing `$r0`
as documented there). -/

/-- One emitted machine instruction: a `dbar hint` completion barrier or an
`invtlb op, asidReg, addrReg` invalidation.  Register operands are modelled
by the value they carry; the zero register `$r0` carries 0. -/
inductive AsmInstr where
  | dbar (hint : Nat)
  | invtlb (op : Nat) (asidOperand : Nat) (addrOperand : Nat)
deriving DecidableEq, Repr

namespace LA64MetaData

/-- The instruction sequence emitted by `LA64MetaData::flush_tlb`,
translated from the source: `Some(vaddr)` emits
`dbar 0; invtlb 0x05, $r0, vaddr` and `None` emits
`dbar 0; invtlb 0x00, $r0, $r0`. -/
def flush_tlb : Option Nat → List AsmInstr
  | some vaddr => [.dbar 0, .invtlb 0x05 0 vaddr]
  | none => [.dbar 0, .invtlb 0x00 0 0]

end LA64MetaData

/-- One cached translation in the model of the local TLB: a global flag, the
address-space identifier it was filled under, and the virtual address. -/
structure TLBEntry where
  global : Bool
  asid : Nat
  va : Nat
deriving DecidableEq, Repr

/-- Modelled from the spec: whether an `invtlb` instruction discards a given
cached entry, per the manual text quoted in the source comments.
Op `0x0` clears every entry; op `0x5` clears the non-global entries whose
ASID matches the active address space (the ASID operand is `$r0`, which the
quoted convention leaves as the implied / current ASID) and whose virtual
address matches the address operand.  Other ops are not emitted by the
adapter and are modelled as clearing nothing. -/
def invtlbClears (op addrOperand curAsid : Nat) (e : TLBEntry) : Bool :=
  if op = 0 then true
  else if op = 5 then !e.global && (e.asid == curAsid) && (e.va == addrOperand)
  else false

/-- Effect of one modelled instruction on the local TLB contents (a `dbar`
barrier constrains ordering only and leaves the cache unchanged). -/
def runInstr (curAsid : Nat) (tlb : List TLBEntry) : AsmInstr → List TLBEntry
  | .dbar _ => tlb
  | .invtlb op _ addr => tlb.filter (fun e => !invtlbClears op addr curAsid e)

/-- Effect of an instruction sequence on the local TLB contents. -/
def runSeq (curAsid : Nat) (tlb : List TLBEntry) (l : List AsmInstr) : List TLBEntry :=
  l.foldl (runInstr curAsid) tlb

/-- An instruction is a full-invalidation (`invtlb` op `0x0`). -/
def isFullInv : AsmInstr → Bool
  | .invtlb op _ _ => op == 0
  | _ => false

/-! ## Spec-modelled generic page-table walker

The generic walker (`PageTable64` with `translate`/`query`, `map`, `unmap`)
is not part of the adapter source file; the definitions below are modelled
from the specification (sections 3, 4.2, 4.3, 4.4), instantiated with the
LoongArch64 geometry established above: 3 levels, 9 index bits per level,
a 12-bit page offset, and huge pages at the two intermediate levels.

Frames are identified by their (physical) frame address, acting as an
index into an association list, exactly as the spec's arena-style
ownership model prescribes.  The Hardware Handler is modelled as an
allocator handing out the fresh frame identifier `next` and never
failing, so the `OutOfMemory` path does not arise in the model; freeing a
frame removes it from the association list. -/

/-- Association-list lookup with a default for absent keys (first match). -/
def alGet {β : Type} (dflt : β) : List (Nat × β) → Nat → β
  | [], _ => dflt
  | q :: rest, i => if q.1 = i then q.2 else alGet dflt rest i

/-- Association-list update: replace the first binding of the key, or
append a new binding when the key is absent. -/
def alSet {β : Type} : List (Nat × β) → Nat → β → List (Nat × β)
  | [], i, b => [(i, b)]
  | q :: rest, i, b => if q.1 = i then (i, b) :: rest else q :: alSet rest i b

/-- Association-list deletion: remove every binding of the key. -/
def alDel {β : Type} (l : List (Nat × β)) (i : Nat) : List (Nat × β) :=
  l.filter (fun q => q.1 != i)

/-- One page-table entry, in exactly the three states of the spec's data
model: empty, intermediate (pointing at a child frame), or leaf (a final
physical base plus flags; a leaf sitting at a non-final level is a huge
mapping). -/
inductive Entry where
  | empty
  | table (frame : Nat)
  | page (paddr : Nat) (flags : Nat)
deriving DecidableEq, Repr

/-- A table frame: a sparse array of entries, indexed `0 ≤ i < 512`;
absent indices read as `Entry.empty`. -/
abbrev Frame := List (Nat × Entry)

/-- A page table: the owned frames keyed by frame identifier, the root
frame identifier, and the next fresh identifier the Hardware Handler
model will hand out. -/
structure PT where
  frames : List (Nat × Frame)
  root : Nat
  next : Nat
deriving DecidableEq, Repr

/-- The error kinds of the spec that the modelled operations produce. -/
inductive PagingError where
  | notMapped
  | alreadyMapped
  | misaligned
  | invalidPageSize
deriving DecidableEq, Repr

instance {ε α : Type} [DecidableEq ε] [DecidableEq α] : DecidableEq (Except ε α)
  | .error e, .error f =>
    if h : e = f then .isTrue (congrArg Except.error h)
    else .isFalse (fun hh => h (Except.error.inj hh))
  | .error _, .ok _ => .isFalse (fun hh => Except.noConfusion hh)
  | .ok _, .error _ => .isFalse (fun hh => Except.noConfusion hh)
  | .ok a, .ok b =>
    if h : a = b then .isTrue (congrArg Except.ok h)
    else .isFalse (fun hh => h (Except.ok.inj hh))

namespace PageTable64

/-- Read an entry of a frame (absent index = empty). -/
def getE (fr : Frame) (i : Nat) : Entry := alGet .empty fr i

/-- Write an entry of a frame. -/
def setE (fr : Frame) (i : Nat) (e : Entry) : Frame := alSet fr i e

/-- The frame owned under a given identifier (unknown identifiers read as
an all-empty frame). -/
def getFrame (pt : PT) (fid : Nat) : Frame := alGet [] pt.frames fid

/-- Replace the frame owned under a given identifier. -/
def setFrame (pt : PT) (fid : Nat) (fr : Frame) : PT :=
  { pt with frames := alSet pt.frames fid fr }

/-- Read the entry at index `i` of frame `fid`. -/
def getEntry (pt : PT) (fid i : Nat) : Entry := getE (getFrame pt fid) i

/-- Write the entry at index `i` of frame `fid`. -/
def setEntry (pt : PT) (fid i : Nat) (e : Entry) : PT :=
  setFrame pt fid (setE (getFrame pt fid) i e)

/-- Number of virtual-address bits consumed below level `l` of the walk
(level 0 is the top directory): 30, 21 and 12 for the three LoongArch64
levels, matching `Dir3Base`, `Dir1Base` and `PTBase`. -/
def levelShift (l : Nat) : Nat := 12 + 9 * (2 - l)

/-- The size of the region one entry at level `l` maps: 1 GiB, 2 MiB and
4 KiB for the three levels. -/
def levelSize (l : Nat) : Nat := 2 ^ levelShift l

/-- Per-level index extraction: the 9 bits of the virtual address starting
at `levelShift l` — a pure, total function of the address and the level. -/
def idx (l v : Nat) : Nat := (v >>> levelShift l) % 512

/-- The level at which a mapping of the given page size is installed
(`none` = not a supported granularity). -/
def sizeLevel (sz : Nat) : Option Nat :=
  if sz = levelSize 2 then some 2
  else if sz = levelSize 1 then some 1
  else if sz = levelSize 0 then some 0
  else none

/-- Modelled from the spec (§4.2): the read-only walk starting at frame
`fid` on level `l` with `rem` further levels available.  An empty entry
fails `NotMapped`; a leaf entry terminates with the stored base plus the
in-region offset, the flags, and the region size of the level it sits on;
an intermediate entry descends, and an intermediate entry at the final
level fails `NotMapped`. -/
def walkFrom (pt : PT) (fid l rem v : Nat) : Except PagingError (Nat × Nat × Nat) :=
  match getEntry pt fid (idx l v), rem with
  | .empty, _ => .error .notMapped
  | .page p fl, _ => .ok (p + v % levelSize l, fl, levelSize l)
  | .table _, 0 => .error .notMapped
  | .table f, rem' + 1 => walkFrom pt f (l + 1) rem' v

/-- Modelled from the spec (§4.2): `translate(vaddr)` resolves a virtual
address to `(paddr, flags, page_size)` by walking from the root through
`LEVELS - 1 = 2` intermediate steps. -/
def translate (pt : PT) (v : Nat) : Except PagingError (Nat × Nat × Nat) :=
  walkFrom pt pt.root 0 2 v

/-- Modelled from the spec (§4.4): `alloc_frame` of the Hardware Handler —
a fresh, zero-filled frame is handed out under the identifier `next`. -/
def allocFrame (pt : PT) : PT :=
  { pt with frames := alSet pt.frames pt.next [], next := pt.next + 1 }

/-- Modelled from the spec (§4.3, §4.4): the step of `map` that obtains the
child frame at `(fid, i)` — descending into an existing intermediate entry,
allocating a fresh zeroed frame via the Hardware Handler model and
installing a fresh intermediate entry when the slot is empty, and refusing
(`none`, reported as `AlreadyMapped`) when the slot already holds a leaf of
an overlapping larger mapping. -/
def childOrAlloc (pt : PT) (fid i : Nat) : Option (Nat × PT) :=
  match getEntry pt fid i with
  | .table f => some (f, pt)
  | .empty => some (pt.next, setEntry (allocFrame pt) fid i (.table pt.next))
  | .page _ _ => none

/-- Modelled from the spec (§4.3): the mutating walk of `map` from frame
`fid` at level `l`, with `rem` more levels to descend before the target
level; at the target, a non-empty entry fails `AlreadyMapped` (no implicit
overwrite), otherwise the leaf is written. -/
def mapWalk (pt : PT) (fid l rem v p fl : Nat) : Except PagingError Unit × PT :=
  match rem with
  | 0 =>
    match getEntry pt fid (idx l v) with
    | .empty => (.ok (), setEntry pt fid (idx l v) (.page p fl))
    | _ => (.error .alreadyMapped, pt)
  | rem' + 1 =>
    match childOrAlloc pt fid (idx l v) with
    | none => (.error .alreadyMapped, pt)
    | some (f, pt1) => mapWalk pt1 f (l + 1) rem' v p fl

/-- Modelled from the spec (§4.3): `map(vaddr, paddr, flags, size)`
validates that `size` is a supported granularity and that both addresses
are aligned to it, then walks down to the level matching `size` and
installs the leaf.  The resulting state is returned alongside the result
(the Rust original mutates in place). -/
def map (pt : PT) (v p fl sz : Nat) : Except PagingError Unit × PT :=
  match sizeLevel sz with
  | none => (.error .invalidPageSize, pt)
  | some t =>
    if v % sz = 0 then
      if p % sz = 0 then mapWalk pt pt.root 0 t v p fl
      else (.error .misaligned, pt)
    else (.error .misaligned, pt)

/-- All entries of a frame are empty (so the frame may be pruned). -/
def frameEmpty (fr : Frame) : Bool :=
  fr.all (fun r => match r.2 with | .empty => true | _ => false)

/-- Clear the entry at index `i` of frame `fid`. -/
def clearEntry (pt : PT) (fid i : Nat) : PT := setEntry pt fid i .empty

/-- Free a frame through the Hardware Handler model: the table no longer
owns it. -/
def delFrame (pt : PT) (fid : Nat) : PT :=
  { pt with frames := alDel pt.frames fid }

/-- Modelled from the spec (§4.3): `unmap(vaddr)` walks to the entry for
`vaddr` (failing `NotMapped` when a level on the path is empty or the
entry at the resolved level is empty), clears it, and then, walking back
up, frees each intermediate frame whose entries have all become empty and
clears its parent entry (eager pruning).  The root frame itself is never
pruned. -/
def unmap (pt : PT) (v : Nat) : Except PagingError Unit × PT :=
  let i0 := idx 0 v
  match getEntry pt pt.root i0 with
  | .empty => (.error .notMapped, pt)
  | .page _ _ => (.ok (), clearEntry pt pt.root i0)
  | .table f1 =>
    let i1 := idx 1 v
    match getEntry pt f1 i1 with
    | .empty => (.error .notMapped, pt)
    | .page _ _ =>
      let pt1 := clearEntry pt f1 i1
      if frameEmpty (getFrame pt1 f1) then
        (.ok (), clearEntry (delFrame pt1 f1) pt.root i0)
      else (.ok (), pt1)
    | .table f2 =>
      let i2 := idx 2 v
      match getEntry pt f2 i2 with
      | .empty => (.error .notMapped, pt)
      | .table _ => (.error .notMapped, pt)
      | .page _ _ =>
        let pt1 := clearEntry pt f2 i2
        if frameEmpty (getFrame pt1 f2) then
          let pt2 := clearEntry (delFrame pt1 f2) f1 i1
          if frameEmpty (getFrame pt2 f1) then
            (.ok (), clearEntry (delFrame pt2 f1) pt.root i0)
          else (.ok (), pt2)
        else (.ok (), pt1)

/-- The frame identifier stored in an intermediate entry is below the
allocation bound `n` (leaves and empty entries impose nothing). -/
def entryTargetOk (n : Nat) : Entry → Prop
  | .table f => f < n
  | _ => True

instance (n : Nat) (e : Entry) : Decidable (entryTargetOk n e) :=
  match e with
  | .table f => inferInstanceAs (Decidable (f < n))
  | .empty => isTrue trivial
  | .page _ _ => isTrue trivial

/-- Well-formedness of a table state: the root and every owned frame
identifier lie below the Hardware Handler model's fresh bound, and every
intermediate entry points below that bound as well — the invariant every
table built through the interface maintains. -/
def WF (pt : PT) : Prop :=
  pt.root < pt.next ∧
  (∀ q ∈ pt.frames, q.1 < pt.next) ∧
  (∀ q ∈ pt.frames, ∀ r ∈ q.2, entryTargetOk pt.next r.2)

instance (pt : PT) : Decidable (WF pt) := by
  unfold WF; infer_instance

/-- A freshly constructed table: the root frame is allocated (and zeroed)
at creation, as §6 prescribes. -/
def PT.empty : PT := { frames := [(0, [])], root := 0, next := 1 }

/-- The walk to `v` runs into an empty slot: some level along the path is
empty, or the entry at the resolved (final) level is already empty — the
failure condition of `unmap` in the spec (§4.3). -/
def pathEmpty (pt : PT) (v : Nat) : Prop :=
  getEntry pt pt.root (idx 0 v) = .empty ∨
  (∃ f1, getEntry pt pt.root (idx 0 v) = .table f1 ∧
    (getEntry pt f1 (idx 1 v) = .empty ∨
      (∃ f2, getEntry pt f1 (idx 1 v) = .table f2 ∧
        getEntry pt f2 (idx 2 v) = .empty)))

/-- The only entry of the whole table that references frame `g` is entry
`i` of frame `fid` — the spec's ownership invariant ("every non-root frame
is owned by its parent entry (the parent entry is the only reference to
it)"), directed at one frame. -/
def onlyRef (pt : PT) (g fid i : Nat) : Prop :=
  ∀ q ∈ pt.frames, ∀ r ∈ q.2, r.2 = .table g → q.1 = fid ∧ r.1 = i

instance (pt : PT) (g fid i : Nat) : Decidable (onlyRef pt g fid i) := by
  unfold onlyRef
  infer_instance

/-- A concrete three-level table holding exactly one 4 KiB leaf for
`0x1000`: root frame 0 → directory frame 1 → leaf frame 2. -/
def prunePT : PT :=
  { frames := [(0, [(0, Entry.table 1)]), (1, [(0, Entry.table 2)]),
      (2, [(1, Entry.page 20480 3)])],
    root := 0, next := 3 }

/-- A concrete table like `prunePT` but whose middle directory frame 1
holds a second child (frame 3), so clearing the `0x1000` path must free
only the leaf-adjacent frame 2 and keep frame 1 in place. -/
def prunePT2 : PT :=
  { frames := [(0, [(0, Entry.table 1)]), (1, [(0, Entry.table 2), (1, Entry.table 3)]),
      (2, [(1, Entry.page 20480 3)]), (3, [(0, Entry.page 40960 3)])],
    root := 0, next := 4 }

end PageTable64

/-! ## Claim theorems about the adapter constants and flush sequences -/

/-- C5: the lower-half descriptor `PWCL_VALUE` packs the base page size
shift 12, the 9-bit leaf table width, the first active directory at base 21
with width 9, and leaves the remaining directory slot of the lower half
(`Dir2`) with base and width 0; the higher-half descriptor `PWCH_VALUE`
activates exactly one top directory (`Dir3`, base 30, width 9) and leaves
its remaining slot (`Dir4`) at width 0 — `Dir2` and `Dir4` being the two
further directory slots disabled by zero width. -/
theorem la64_pwc_packing :
    LA64MetaData.ptBase = 12 ∧ LA64MetaData.ptWidth = 9 ∧
    LA64MetaData.dir1Base = 21 ∧ LA64MetaData.dir1Width = 9 ∧
    LA64MetaData.dir2Base = 0 ∧ LA64MetaData.dir2Width = 0 ∧
    LA64MetaData.pteWidth = 0 ∧
    LA64MetaData.dir3Base = 30 ∧ LA64MetaData.dir3Width = 9 ∧
    LA64MetaData.dir4Base = 0 ∧ LA64MetaData.dir4Width = 0 := by
  decide

/-- C10: the active levels tile the virtual address contiguously and
disjointly: `Dir1Base = PTBase + PTWidth` and
`Dir3Base = PTBase + PTWidth + Dir1Width`, and no virtual-address bit is
claimed by more than one of the page offset, the leaf table, the middle
directory and the top directory. -/
theorem la64_level_ranges_adjacent :
    LA64MetaData.dir1Base = LA64MetaData.ptBase + LA64MetaData.ptWidth ∧
    LA64MetaData.dir3Base =
      LA64MetaData.ptBase + LA64MetaData.ptWidth + LA64MetaData.dir1Width ∧
    ∀ b : Fin 64,
      (if LA64MetaData.covers 0 LA64MetaData.ptBase b.val then 1 else 0) +
      (if LA64MetaData.covers LA64MetaData.ptBase LA64MetaData.ptWidth b.val then 1 else 0) +
      (if LA64MetaData.covers LA64MetaData.dir1Base LA64MetaData.dir1Width b.val then 1 else 0) +
      (if LA64MetaData.covers LA64MetaData.dir3Base LA64MetaData.dir3Width b.val then 1 else 0)
        ≤ 1 := by
  decide

/-- C6 counterexample: the claim that the page offset together with the
three active levels covers exactly bits `0` through `VA_MAX_BITS - 1` fails
at bit 39: bit `VA_MAX_BITS - 1 = 39` is inside the declared 40-bit
virtual-address bound but is not consumed by the page offset or any active
level (the levels stop at bit 38). -/
theorem la64_bit39_uncovered :
    LA64MetaData.VA_MAX_BITS - 1 < LA64MetaData.VA_MAX_BITS ∧
    LA64MetaData.coveredBit (LA64MetaData.VA_MAX_BITS - 1) = false := by
  decide

/-- C6 (amended): per-level index extraction is disjoint (no bit belongs to
two ranges) and gap-free from bit 0 upward, but it covers exactly bits `0`
through `38 = VA_MAX_BITS - 2` — one bit short of the declared
`VA_MAX_BITS = 40` bound: a virtual-address bit `b < 64` is covered iff
`b < 39`. -/
theorem la64_bit_coverage :
    (∀ b : Fin 64, LA64MetaData.coveredBit b.val = true ↔ b.val < 39) ∧
    (∀ b : Fin 64,
      (if LA64MetaData.covers 0 LA64MetaData.ptBase b.val then 1 else 0) +
      (if LA64MetaData.covers LA64MetaData.ptBase LA64MetaData.ptWidth b.val then 1 else 0) +
      (if LA64MetaData.covers LA64MetaData.dir1Base LA64MetaData.dir1Width b.val then 1 else 0) +
      (if LA64MetaData.covers LA64MetaData.dir3Base LA64MetaData.dir3Width b.val then 1 else 0)
        ≤ 1) ∧
    39 = LA64MetaData.VA_MAX_BITS - 1 := by
  decide

/-- C7: `flush_tlb (some vaddr)` emits the completion barrier `dbar 0`
followed by exactly one invalidate instruction, `invtlb 0x5, $r0, vaddr`;
running the sequence on any cache contents under any active ASID discards
exactly the non-global entries whose ASID is the active one and whose
virtual address is `vaddr`. -/
theorem la64_flush_tlb_single (vaddr curAsid : Nat) (tlb : List TLBEntry)
    (e : TLBEntry) :
    LA64MetaData.flush_tlb (some vaddr) = [.dbar 0, .invtlb 5 0 vaddr] ∧
    (e ∈ runSeq curAsid tlb (LA64MetaData.flush_tlb (some vaddr)) ↔
      e ∈ tlb ∧ ¬(e.global = false ∧ e.asid = curAsid ∧ e.va = vaddr)) := by
  constructor
  · rfl
  · rw [show runSeq curAsid tlb (LA64MetaData.flush_tlb (some vaddr)) =
        tlb.filter (fun x => !invtlbClears 5 vaddr curAsid x) from rfl]
    rw [List.mem_filter]
    rcases e with ⟨g, a, w⟩
    cases g <;> by_cases ha : a = curAsid <;> by_cases hv : w = vaddr <;>
      simp_all [invtlbClears]

/-- C8: `flush_tlb none` emits the same barrier then one invalidate
instruction with op `0x0` and both data operands zeroed, which discards
every cached entry; path selection is exact — the single-address form emits
no full-invalidation instruction, the full form emits exactly one, and
neither form depends on how many mappings exist (the sequence is fixed). -/
theorem la64_flush_tlb_full (vaddr curAsid : Nat) (tlb : List TLBEntry) :
    LA64MetaData.flush_tlb none = [.dbar 0, .invtlb 0 0 0] ∧
    runSeq curAsid tlb (LA64MetaData.flush_tlb none) = [] ∧
    ((LA64MetaData.flush_tlb none).filter isFullInv).length = 1 ∧
    ((LA64MetaData.flush_tlb (some vaddr)).filter isFullInv).length = 0 := by
  refine ⟨rfl, ?_, rfl, ?_⟩
  · simp [LA64MetaData.flush_tlb, runSeq, runInstr, invtlbClears]
  · simp [LA64MetaData.flush_tlb, isFullInv]


/-! ## Association-list lemmas -/

theorem alGet_alSet {β : Type} (dflt : β) (l : List (Nat × β)) (i j : Nat) (b : β) :
    alGet dflt (alSet l i b) j = if i = j then b else alGet dflt l j := by
  induction l with
  | nil =>
    simp [alSet, alGet]
  | cons q rest ih =>
    by_cases hq : q.1 = i
    · simp only [alSet, if_pos hq, alGet]
      by_cases h : i = j
      · simp [h]
      · have hqj : ¬ q.1 = j := by rw [hq]; exact h
        simp [h, hqj]
    · simp only [alSet, if_neg hq, alGet]
      by_cases hqj : q.1 = j
      · have hij : ¬ i = j := by intro hij; rw [← hij] at hqj; exact hq hqj
        simp [hqj, hij]
      · simp [hqj, ih]

theorem alGet_alDel {β : Type} (dflt : β) (l : List (Nat × β)) (i j : Nat) :
    alGet dflt (alDel l i) j = if i = j then dflt else alGet dflt l j := by
  induction l with
  | nil => by_cases h : i = j <;> simp [alDel, alGet, h]
  | cons q rest ih =>
    by_cases hq : q.1 = i
    · have : (q.1 != i) = false := by simp [hq]
      simp only [alDel, List.filter] at ih ⊢
      rw [this]
      by_cases h : i = j
      · rw [ih]; simp [h]
      · rw [ih]; simp only [if_neg h]
        have : ¬ q.1 = j := by rw [hq]; exact h
        simp [alGet, this]
    · have : (q.1 != i) = true := by simp [hq]
      simp only [alDel, List.filter] at ih ⊢
      rw [this]
      by_cases h : i = j
      · subst h
        simp [alGet, hq, ih]
      · by_cases hqj : q.1 = j <;> simp [alGet, hqj, ih, h]

theorem mem_alSet_weak {β : Type} {l : List (Nat × β)} {i : Nat} {b : β}
    {q : Nat × β} (hq : q ∈ alSet l i b) : q ∈ l ∨ q = (i, b) := by
  induction l with
  | nil => simp [alSet] at hq; right; exact hq
  | cons p rest ih =>
    by_cases hp : p.1 = i
    · simp only [alSet, if_pos hp] at hq
      rcases List.mem_cons.1 hq with h | h
      · right; exact h
      · left; exact List.mem_cons_of_mem _ h
    · simp only [alSet, if_neg hp] at hq
      rcases List.mem_cons.1 hq with h | h
      · left; exact h ▸ List.mem_cons_self _ _
      · rcases ih h with h' | h'
        · left; exact List.mem_cons_of_mem _ h'
        · right; exact h'

theorem mem_alDel {β : Type} {l : List (Nat × β)} {i : Nat} {q : Nat × β}
    (hq : q ∈ alDel l i) : q ∈ l ∧ q.1 ≠ i := by
  unfold alDel at hq
  have := List.mem_filter.1 hq
  refine ⟨this.1, ?_⟩
  have h2 := this.2
  simpa using h2

theorem mem_alSet_of_nodup {β : Type} {l : List (Nat × β)} {i : Nat} {b : β}
    {q : Nat × β} (hn : (l.map Prod.fst).Nodup) (hq : q ∈ alSet l i b) :
    (q ∈ l ∧ q.1 ≠ i) ∨ q = (i, b) := by
  induction l with
  | nil => simp [alSet] at hq; right; exact hq
  | cons p rest ih =>
    simp only [List.map_cons, List.nodup_cons] at hn
    by_cases hp : p.1 = i
    · simp only [alSet, if_pos hp] at hq
      rcases List.mem_cons.1 hq with h | h
      · right; exact h
      · left
        refine ⟨List.mem_cons_of_mem _ h, fun hqi => ?_⟩
        apply hn.1
        have hm : q.1 ∈ rest.map Prod.fst := List.mem_map_of_mem Prod.fst h
        rw [hqi, ← hp] at hm
        exact hm
    · simp only [alSet, if_neg hp] at hq
      rcases List.mem_cons.1 hq with h | h
      · left; exact ⟨h ▸ List.mem_cons_self _ _, h ▸ hp⟩
      · rcases ih hn.2 h with h' | h'
        · left; exact ⟨List.mem_cons_of_mem _ h'.1, h'.2⟩
        · right; exact h'

theorem keys_alSet_sub {β : Type} {l : List (Nat × β)} {i k : Nat} {b : β}
    (hk : k ∈ (alSet l i b).map Prod.fst) : k ∈ l.map Prod.fst ∨ k = i := by
  rcases List.mem_map.1 hk with ⟨q, hq, hqk⟩
  rcases mem_alSet_weak hq with h | h
  · left; exact hqk ▸ List.mem_map_of_mem Prod.fst h
  · right; rw [← hqk, h]

theorem keys_nodup_alSet {β : Type} {l : List (Nat × β)} {i : Nat} {b : β}
    (hn : (l.map Prod.fst).Nodup) : ((alSet l i b).map Prod.fst).Nodup := by
  induction l with
  | nil => simp [alSet]
  | cons p rest ih =>
    simp only [List.map_cons, List.nodup_cons] at hn
    by_cases hp : p.1 = i
    · simp only [alSet, if_pos hp, List.map_cons, List.nodup_cons]
      exact ⟨hp ▸ hn.1, hn.2⟩
    · simp only [alSet, if_neg hp, List.map_cons, List.nodup_cons]
      refine ⟨?_, ih hn.2⟩
      intro hmem
      rcases keys_alSet_sub hmem with h | h
      · exact hn.1 h
      · exact hp h

theorem keys_nodup_alDel {β : Type} {l : List (Nat × β)} {i : Nat}
    (hn : (l.map Prod.fst).Nodup) : ((alDel l i).map Prod.fst).Nodup := by
  unfold alDel
  exact ((List.filter_sublist l).map Prod.fst).nodup hn

theorem alGet_mem {β : Type} {dflt : β} {l : List (Nat × β)} {i : Nat} {b : β}
    (h : alGet dflt l i = b) : b = dflt ∨ (i, b) ∈ l := by
  induction l with
  | nil => left; simpa [alGet] using h.symm
  | cons q rest ih =>
    by_cases hq : q.1 = i
    · simp only [alGet, if_pos hq] at h
      right
      have : (i, b) = q := by
        rcases q with ⟨q1, q2⟩
        simp at hq h
        simp [hq, h]
      exact this ▸ List.mem_cons_self _ _
    · simp only [alGet, if_neg hq] at h
      rcases ih h with h' | h'
      · left; exact h'
      · right; exact List.mem_cons_of_mem _ h'

theorem alGet_default_of_absent {β : Type} {dflt : β} {l : List (Nat × β)} {i : Nat}
    (h : ∀ q ∈ l, q.1 ≠ i) : alGet dflt l i = dflt := by
  induction l with
  | nil => rfl
  | cons q rest ih =>
    have hq : q.1 ≠ i := h q (List.mem_cons_self _ _)
    simp only [alGet, if_neg hq]
    exact ih (fun r hr => h r (List.mem_cons_of_mem _ hr))

namespace PageTable64

/-! ## Read / write lemmas on the table state -/

theorem getFrame_setFrame (pt : PT) (f g : Nat) (fr : Frame) :
    getFrame (setFrame pt f fr) g = if f = g then fr else getFrame pt g := by
  unfold getFrame setFrame
  exact alGet_alSet [] pt.frames f g fr

theorem getE_setE (fr : Frame) (i j : Nat) (e : Entry) :
    getE (setE fr i e) j = if i = j then e else getE fr j := by
  unfold getE setE
  exact alGet_alSet .empty fr i j e

theorem root_setEntry (pt : PT) (f i : Nat) (e : Entry) :
    (setEntry pt f i e).root = pt.root := rfl

theorem next_setEntry (pt : PT) (f i : Nat) (e : Entry) :
    (setEntry pt f i e).next = pt.next := rfl

theorem root_delFrame (pt : PT) (f : Nat) : (delFrame pt f).root = pt.root := rfl

theorem next_delFrame (pt : PT) (f : Nat) : (delFrame pt f).next = pt.next := rfl

theorem getFrame_setEntry (pt : PT) (f i g : Nat) (e : Entry) :
    getFrame (setEntry pt f i e) g =
      if f = g then setE (getFrame pt f) i e else getFrame pt g := by
  unfold setEntry
  exact getFrame_setFrame pt f g _

theorem getEntry_setEntry (pt : PT) (f i g j : Nat) (e : Entry) :
    getEntry (setEntry pt f i e) g j =
      if f = g then (if i = j then e else getEntry pt g j) else getEntry pt g j := by
  unfold getEntry
  rw [getFrame_setEntry]
  by_cases hf : f = g
  · rw [if_pos hf, if_pos hf, getE_setE, hf]
  · rw [if_neg hf, if_neg hf]

theorem getEntry_setEntry_self (pt : PT) (f i : Nat) (e : Entry) :
    getEntry (setEntry pt f i e) f i = e := by
  rw [getEntry_setEntry]; simp

theorem getFrame_delFrame (pt : PT) (f g : Nat) :
    getFrame (delFrame pt f) g = if f = g then [] else getFrame pt g := by
  unfold getFrame delFrame
  exact alGet_alDel [] pt.frames f g

theorem getEntry_delFrame (pt : PT) (f g j : Nat) :
    getEntry (delFrame pt f) g j = if f = g then .empty else getEntry pt g j := by
  unfold getEntry
  rw [getFrame_delFrame]
  by_cases hf : f = g
  · rw [if_pos hf, if_pos hf]; rfl
  · rw [if_neg hf, if_neg hf]

/-! ## Walk lemmas -/

theorem walkFrom_of_empty {pt : PT} {fid l v : Nat} (rem : Nat)
    (h : getEntry pt fid (idx l v) = .empty) :
    walkFrom pt fid l rem v = .error .notMapped := by
  apply walkFrom.eq_1
  exact h

theorem walkFrom_of_page {pt : PT} {fid l v p fl : Nat} (rem : Nat)
    (h : getEntry pt fid (idx l v) = .page p fl) :
    walkFrom pt fid l rem v = .ok (p + v % levelSize l, fl, levelSize l) := by
  apply walkFrom.eq_2
  exact h

theorem walkFrom_of_table_zero {pt : PT} {fid l v f : Nat}
    (h : getEntry pt fid (idx l v) = .table f) :
    walkFrom pt fid l 0 v = .error .notMapped := by
  apply walkFrom.eq_3
  exact h

theorem walkFrom_of_table {pt : PT} {fid l v f : Nat} (rem : Nat)
    (h : getEntry pt fid (idx l v) = .table f) :
    walkFrom pt fid l (rem + 1) v = walkFrom pt f (l + 1) rem v := by
  apply walkFrom.eq_4
  exact h

theorem walkFrom_mono {r : Nat × Nat × Nat} (rem : Nat) :
    ∀ (pt : PT) (fid l rem' v : Nat), walkFrom pt fid l rem v = .ok r →
      rem ≤ rem' → walkFrom pt fid l rem' v = .ok r := by
  induction rem with
  | zero =>
    intro pt fid l rem' v h _
    cases hE : getEntry pt fid (idx l v) with
    | empty => rw [walkFrom_of_empty 0 hE] at h; exact absurd h (by simp)
    | page p fl => rw [walkFrom_of_page 0 hE] at h; rw [walkFrom_of_page rem' hE]; exact h
    | table f => rw [walkFrom_of_table_zero hE] at h; exact absurd h (by simp)
  | succ k ih =>
    intro pt fid l rem' v h hle
    cases hE : getEntry pt fid (idx l v) with
    | empty => rw [walkFrom_of_empty (k + 1) hE] at h; exact absurd h (by simp)
    | page p fl => rw [walkFrom_of_page (k + 1) hE] at h; rw [walkFrom_of_page rem' hE]; exact h
    | table f =>
      rw [walkFrom_of_table k hE] at h
      obtain ⟨d, rfl⟩ : ∃ d, rem' = (k + d) + 1 := ⟨rem' - k - 1, by omega⟩
      rw [walkFrom_of_table (k + d) hE]
      exact ih pt f (l + 1) (k + d) v h (Nat.le_add_right k d)

/-! ## Well-formedness and preservation lemmas for the mutating walk -/

theorem entryTargetOk_mono {n m : Nat} {e : Entry} (h : entryTargetOk n e)
    (hm : n ≤ m) : entryTargetOk m e := by
  cases e with
  | table f => exact Nat.lt_of_lt_of_le h hm
  | empty => trivial
  | page p fl => trivial

theorem getEntry_mem {pt : PT} {g j : Nat} {e : Entry}
    (h : getEntry pt g j = e) (hne : e ≠ .empty) :
    ∃ fr, (g, fr) ∈ pt.frames ∧ (j, e) ∈ fr := by
  have hget : alGet Entry.empty (getFrame pt g) j = e := h
  rcases alGet_mem (show alGet [] pt.frames g = getFrame pt g from rfl) with hfr | hfr
  · exfalso
    apply hne
    rw [hfr] at hget
    rw [← hget]
    rfl
  · rcases alGet_mem hget with he | he
    · exact absurd he hne
    · exact ⟨getFrame pt g, hfr, he⟩

theorem WF_table_lt {pt : PT} {g j f : Nat} (hwf : WF pt)
    (h : getEntry pt g j = .table f) : f < pt.next := by
  rcases getEntry_mem h (by simp) with ⟨fr, hfr, hjf⟩
  exact hwf.2.2 (g, fr) hfr (j, .table f) hjf

theorem frames_setEntry (pt : PT) (fid i : Nat) (e : Entry) :
    (setEntry pt fid i e).frames = alSet pt.frames fid (setE (getFrame pt fid) i e) := rfl

theorem WF_setEntry {pt : PT} {fid i : Nat} {e : Entry} (hwf : WF pt)
    (hfid : fid < pt.next) (he : entryTargetOk pt.next e) :
    WF (setEntry pt fid i e) := by
  obtain ⟨hroot, hbound, hclosed⟩ := hwf
  refine ⟨hroot, ?_, ?_⟩
  · intro q hq
    rw [frames_setEntry] at hq
    rcases mem_alSet_weak hq with h | h
    · exact hbound q h
    · rw [h]; exact hfid
  · intro q hq r hr
    rw [frames_setEntry] at hq
    rcases mem_alSet_weak hq with h | h
    · exact hclosed q h r hr
    · subst h
      rcases mem_alSet_weak hr with h' | h'
      · rcases alGet_mem (show alGet [] pt.frames fid = getFrame pt fid from rfl) with hfr | hfr
        · rw [hfr] at h'; simp at h'
        · exact hclosed _ hfr r h'
      · rw [h']; exact he

theorem getFrame_allocFrame {pt : PT} (hb : ∀ q ∈ pt.frames, q.1 < pt.next)
    (g : Nat) : getFrame (allocFrame pt) g = getFrame pt g := by
  show alGet [] (alSet pt.frames pt.next []) g = alGet [] pt.frames g
  rw [alGet_alSet]
  by_cases h : pt.next = g
  · rw [if_pos h]
    symm
    apply alGet_default_of_absent
    intro q hq
    have := hb q hq
    omega
  · rw [if_neg h]

theorem getEntry_allocFrame {pt : PT} (hb : ∀ q ∈ pt.frames, q.1 < pt.next)
    (g j : Nat) : getEntry (allocFrame pt) g j = getEntry pt g j := by
  unfold getEntry
  rw [getFrame_allocFrame hb]

theorem next_allocFrame (pt : PT) : (allocFrame pt).next = pt.next + 1 := rfl

theorem root_allocFrame (pt : PT) : (allocFrame pt).root = pt.root := rfl

theorem WF_allocFrame {pt : PT} (hwf : WF pt) : WF (allocFrame pt) := by
  obtain ⟨hroot, hbound, hclosed⟩ := hwf
  refine ⟨Nat.lt_succ_of_lt hroot, ?_, ?_⟩
  · intro q hq
    rcases mem_alSet_weak hq with h | h
    · exact Nat.lt_succ_of_lt (hbound q h)
    · rw [h]; exact Nat.lt_succ_self _
  · intro q hq r hr
    rcases mem_alSet_weak hq with h | h
    · exact entryTargetOk_mono (hclosed q h r hr) (Nat.le_succ _)
    · rw [h] at hr; simp at hr

theorem childOrAlloc_spec {pt : PT} {fid i f : Nat} {pt1 : PT} (hwf : WF pt)
    (hfid : fid < pt.next) (h : childOrAlloc pt fid i = some (f, pt1)) :
    WF pt1 ∧ f < pt1.next ∧ pt.next ≤ pt1.next ∧
    pt1.root = pt.root ∧
    getEntry pt1 fid i = .table f ∧
    (∀ g j h', getEntry pt g j = .table h' → getEntry pt1 g j = .table h') := by
  unfold childOrAlloc at h
  cases hE : getEntry pt fid i with
  | table f0 =>
    rw [hE] at h
    simp only [Option.some.injEq, Prod.mk.injEq] at h
    obtain ⟨rfl, rfl⟩ := h
    exact ⟨hwf, WF_table_lt hwf hE, Nat.le_refl _, rfl, hE, fun g j h' hg => hg⟩
  | page p0 fl0 =>
    rw [hE] at h
    simp at h
  | empty =>
    rw [hE] at h
    simp only [Option.some.injEq, Prod.mk.injEq] at h
    obtain ⟨rfl, rfl⟩ := h
    have hwfA : WF (allocFrame pt) := WF_allocFrame hwf
    have hfidA : fid < (allocFrame pt).next := Nat.lt_succ_of_lt hfid
    have hok : entryTargetOk (allocFrame pt).next (Entry.table pt.next) :=
      Nat.lt_succ_self _
    refine ⟨WF_setEntry hwfA hfidA hok, ?_, ?_, rfl, ?_, ?_⟩
    · show pt.next < (allocFrame pt).next
      exact Nat.lt_succ_self _
    · show pt.next ≤ (allocFrame pt).next
      exact Nat.le_succ _
    · exact getEntry_setEntry_self _ _ _ _
    · intro g j h' hg
      rw [getEntry_setEntry]
      by_cases h1 : fid = g
      · rw [if_pos h1]
        by_cases h2 : i = j
        · exfalso
          rw [← h1, ← h2] at hg
          rw [hE] at hg
          exact Entry.noConfusion hg
        · rw [if_neg h2, getEntry_allocFrame hwf.2.1]
          exact hg
      · rw [if_neg h1, getEntry_allocFrame hwf.2.1]
        exact hg

theorem mapWalk_zero_install {pt : PT} {fid l v p fl : Nat}
    (h : getEntry pt fid (idx l v) = .empty) :
    mapWalk pt fid l 0 v p fl = (.ok (), setEntry pt fid (idx l v) (.page p fl)) := by
  rw [mapWalk.eq_1, h]

theorem mapWalk_zero_busy {pt : PT} {fid l v p fl : Nat} {e : Entry}
    (h : getEntry pt fid (idx l v) = e) (hne : e ≠ .empty) :
    mapWalk pt fid l 0 v p fl = (.error .alreadyMapped, pt) := by
  rw [mapWalk.eq_1, h]
  cases e with
  | empty => exact absurd rfl hne
  | table f => rfl
  | page p0 fl0 => rfl

theorem mapWalk_succ_none {pt : PT} {fid l rem v p fl : Nat}
    (h : childOrAlloc pt fid (idx l v) = none) :
    mapWalk pt fid l (rem + 1) v p fl = (.error .alreadyMapped, pt) := by
  rw [mapWalk.eq_2, h]

theorem mapWalk_succ_some {pt pt1 : PT} {fid l rem v p fl f : Nat}
    (h : childOrAlloc pt fid (idx l v) = some (f, pt1)) :
    mapWalk pt fid l (rem + 1) v p fl = mapWalk pt1 f (l + 1) rem v p fl := by
  rw [mapWalk.eq_2, h]

theorem mapWalk_preserves (rem : Nat) :
    ∀ (pt : PT) (fid l v p fl : Nat), WF pt → fid < pt.next →
      WF (mapWalk pt fid l rem v p fl).2 ∧
      pt.next ≤ (mapWalk pt fid l rem v p fl).2.next ∧
      (mapWalk pt fid l rem v p fl).2.root = pt.root ∧
      (∀ g j f, getEntry pt g j = .table f →
        getEntry (mapWalk pt fid l rem v p fl).2 g j = .table f) := by
  induction rem with
  | zero =>
    intro pt fid l v p fl hwf hfid
    cases hE : getEntry pt fid (idx l v) with
    | empty =>
      rw [mapWalk_zero_install hE]
      refine ⟨WF_setEntry hwf hfid trivial, Nat.le_refl _, rfl, ?_⟩
      intro g j f hg
      rw [getEntry_setEntry]
      by_cases h1 : fid = g
      · rw [if_pos h1]
        by_cases h2 : idx l v = j
        · exfalso
          rw [← h1, ← h2, hE] at hg
          exact Entry.noConfusion hg
        · rw [if_neg h2]; exact hg
      · rw [if_neg h1]; exact hg
    | table f0 =>
      rw [mapWalk_zero_busy hE (by simp)]
      exact ⟨hwf, Nat.le_refl _, rfl, fun g j f hg => hg⟩
    | page p0 fl0 =>
      rw [mapWalk_zero_busy hE (by simp)]
      exact ⟨hwf, Nat.le_refl _, rfl, fun g j f hg => hg⟩
  | succ k ih =>
    intro pt fid l v p fl hwf hfid
    cases hC : childOrAlloc pt fid (idx l v) with
    | none =>
      rw [mapWalk_succ_none hC]
      exact ⟨hwf, Nat.le_refl _, rfl, fun g j f hg => hg⟩
    | some pair =>
      obtain ⟨f, pt1⟩ := pair
      rw [mapWalk_succ_some hC]
      obtain ⟨hwf1, hf1, hnext1, hroot1, hE1, hpres1⟩ := childOrAlloc_spec hwf hfid hC
      obtain ⟨ihwf, ihnext, ihroot, ihpres⟩ := ih pt1 f (l + 1) v p fl hwf1 hf1
      refine ⟨ihwf, Nat.le_trans hnext1 ihnext, ihroot.trans hroot1, ?_⟩
      intro g j f' hg
      exact ihpres g j f' (hpres1 g j f' hg)

theorem mapWalk_ok (rem : Nat) :
    ∀ (pt pt' : PT) (fid l v p fl w : Nat), WF pt → fid < pt.next →
      mapWalk pt fid l rem v p fl = (.ok (), pt') →
      (∀ j, l ≤ j → j ≤ l + rem → idx j w = idx j v) →
      walkFrom pt' fid l rem w =
        .ok (p + w % levelSize (l + rem), fl, levelSize (l + rem)) := by
  induction rem with
  | zero =>
    intro pt pt' fid l v p fl w hwf hfid hmw hw
    cases hE : getEntry pt fid (idx l v) with
    | empty =>
      rw [mapWalk_zero_install hE] at hmw
      simp only [Prod.mk.injEq] at hmw
      obtain ⟨-, rfl⟩ := hmw
      have hiw : idx l w = idx l v := hw l (Nat.le_refl _) (by omega)
      have hpage : getEntry (setEntry pt fid (idx l v) (.page p fl)) fid (idx l w) = .page p fl := by
        rw [hiw, getEntry_setEntry_self]
      rw [walkFrom_of_page 0 hpage, Nat.add_zero]
    | table f0 =>
      rw [mapWalk_zero_busy hE (by simp)] at hmw
      simp at hmw
    | page p0 fl0 =>
      rw [mapWalk_zero_busy hE (by simp)] at hmw
      simp at hmw
  | succ k ih =>
    intro pt pt' fid l v p fl w hwf hfid hmw hw
    cases hC : childOrAlloc pt fid (idx l v) with
    | none =>
      rw [mapWalk_succ_none hC] at hmw
      simp at hmw
    | some pair =>
      obtain ⟨f, pt1⟩ := pair
      rw [mapWalk_succ_some hC] at hmw
      obtain ⟨hwf1, hf1, -, -, hE1, -⟩ := childOrAlloc_spec hwf hfid hC
      have hrec := ih pt1 pt' f (l + 1) v p fl w hwf1 hf1 hmw
        (fun j hj1 hj2 => hw j (by omega) (by omega))
      obtain ⟨-, -, -, hpres⟩ := mapWalk_preserves k pt1 f (l + 1) v p fl hwf1 hf1
      rw [hmw] at hpres
      have hfinal : getEntry pt' fid (idx l v) = .table f := hpres fid (idx l v) f hE1
      have hiw : idx l w = idx l v := hw l (Nat.le_refl _) (by omega)
      have hfw : getEntry pt' fid (idx l w) = .table f := by rw [hiw]; exact hfinal
      rw [walkFrom_of_table k hfw]
      have harith : l + 1 + k = l + (k + 1) := by omega
      rw [← harith]
      exact hrec

theorem walkFrom_conflict (remm : Nat) :
    ∀ (pt : PT) (fid l remw v p fl w : Nat) (r : Nat × Nat × Nat),
      walkFrom pt fid l remw w = .ok r → remm ≤ remw →
      (∀ j, l ≤ j → j ≤ l + remm → idx j w = idx j v) →
      mapWalk pt fid l remm v p fl = (.error .alreadyMapped, pt) := by
  induction remm with
  | zero =>
    intro pt fid l remw v p fl w r hwk hle hw
    have hiw : idx l v = idx l w := (hw l (Nat.le_refl _) (by omega)).symm
    cases hE : getEntry pt fid (idx l w) with
    | empty => rw [walkFrom_of_empty remw hE] at hwk; simp at hwk
    | table f =>
      have hEv : getEntry pt fid (idx l v) = .table f := by rw [hiw]; exact hE
      exact mapWalk_zero_busy hEv (by simp)
    | page p0 fl0 =>
      have hEv : getEntry pt fid (idx l v) = .page p0 fl0 := by rw [hiw]; exact hE
      exact mapWalk_zero_busy hEv (by simp)
  | succ k ih =>
    intro pt fid l remw v p fl w r hwk hle hw
    have hiw : idx l v = idx l w := (hw l (Nat.le_refl _) (by omega)).symm
    cases hE : getEntry pt fid (idx l w) with
    | empty => rw [walkFrom_of_empty remw hE] at hwk; simp at hwk
    | page p0 fl0 =>
      have hC : childOrAlloc pt fid (idx l v) = none := by
        unfold childOrAlloc
        rw [hiw, hE]
      exact mapWalk_succ_none hC
    | table f =>
      have hC : childOrAlloc pt fid (idx l v) = some (f, pt) := by
        unfold childOrAlloc
        rw [hiw, hE]
      rw [mapWalk_succ_some hC]
      obtain ⟨d, rfl⟩ : ∃ d, remw = (k + d) + 1 := ⟨remw - k - 1, by omega⟩
      rw [walkFrom_of_table (k + d) hE] at hwk
      exact ih pt f (l + 1) (k + d) v p fl w r hwk (Nat.le_add_right k d)
        (fun j hj1 hj2 => hw j (by omega) (by omega))

/-! ## Size and alignment arithmetic -/

theorem sizeLevel_inv {sz t : Nat} (h : sizeLevel sz = some t) :
    t ≤ 2 ∧ sz = levelSize t := by
  unfold sizeLevel at h
  split_ifs at h with h1 h2 h3
  · injection h with h'; subst h'; exact ⟨by omega, h1⟩
  · injection h with h'; subst h'; exact ⟨by omega, h2⟩
  · injection h with h'; subst h'; exact ⟨by omega, h3⟩

theorem levelShift_le {j t : Nat} (hj : j ≤ t) (ht : t ≤ 2) :
    levelShift t ≤ levelShift j := by
  unfold levelShift
  omega

theorem shiftRight_add_aligned {v o s T : Nat} (hv : v % 2 ^ s = 0)
    (ho : o < 2 ^ s) (hsT : s ≤ T) : (v + o) >>> T = v >>> T := by
  rw [Nat.shiftRight_eq_div_pow, Nat.shiftRight_eq_div_pow]
  obtain ⟨k, hk⟩ : 2 ^ s ∣ v := Nat.dvd_of_mod_eq_zero hv
  subst hk
  have hpow : (2 : Nat) ^ T = 2 ^ s * 2 ^ (T - s) := by
    rw [← pow_add]
    congr 1
    omega
  have h2s : 0 < (2 : Nat) ^ s := pow_pos (by norm_num) s
  rw [hpow, ← Nat.div_div_eq_div_mul, ← Nat.div_div_eq_div_mul]
  congr 1
  rw [Nat.add_comm, Nat.add_mul_div_left _ _ h2s, Nat.div_eq_of_lt ho,
    Nat.zero_add, Nat.mul_div_cancel_left _ h2s]

theorem add_mod_of_aligned {v o s : Nat} (hv : v % 2 ^ s = 0)
    (ho : o < 2 ^ s) : (v + o) % 2 ^ s = o := by
  rw [Nat.add_mod, hv, Nat.zero_add, Nat.mod_mod_of_dvd o dvd_rfl,
    Nat.mod_eq_of_lt ho]

theorem idx_add_aligned {v o s : Nat} (j : Nat) (hv : v % 2 ^ s = 0)
    (ho : o < 2 ^ s) (hs : s ≤ levelShift j) : idx j (v + o) = idx j v := by
  unfold idx
  rw [shiftRight_add_aligned hv ho hs]

theorem map_eq_mapWalk {pt : PT} {v p fl sz t : Nat} (hs : sizeLevel sz = some t)
    (hv : v % sz = 0) (hp : p % sz = 0) :
    map pt v p fl sz = mapWalk pt pt.root 0 t v p fl := by
  unfold map
  simp only [hs]
  rw [if_pos hv, if_pos hp]

theorem map_ok_inv {pt : PT} {v p fl sz : Nat}
    (h : (map pt v p fl sz).1 = .ok ()) :
    ∃ t, sizeLevel sz = some t ∧ v % sz = 0 ∧ p % sz = 0 := by
  unfold map at h
  cases hs : sizeLevel sz with
  | none => simp only [hs] at h; simp at h
  | some t =>
    simp only [hs] at h
    by_cases hv : v % sz = 0
    · by_cases hp : p % sz = 0
      · exact ⟨t, rfl, hv, hp⟩
      · rw [if_pos hv, if_neg hp] at h; simp at h
    · rw [if_neg hv] at h; simp at h

/-! ## Unmap lemmas -/

theorem getEntry_clearEntry (pt : PT) (f i g j : Nat) :
    getEntry (clearEntry pt f i) g j =
      if f = g then (if i = j then .empty else getEntry pt g j) else getEntry pt g j :=
  getEntry_setEntry pt f i g j .empty

theorem getEntry_clearEntry_self (pt : PT) (f i : Nat) :
    getEntry (clearEntry pt f i) f i = .empty := getEntry_setEntry_self pt f i .empty

theorem root_clearEntry (pt : PT) (f i : Nat) : (clearEntry pt f i).root = pt.root := rfl

theorem unmap_of_pathEmpty {pt : PT} {v : Nat} (h : pathEmpty pt v) :
    unmap pt v = (.error .notMapped, pt) := by
  rcases h with h0 | ⟨f1, h0, h1 | ⟨f2, h1, h2⟩⟩
  · simp only [unmap, h0]
  · simp only [unmap, h0, h1]
  · simp only [unmap, h0, h1, h2]

theorem unmap_ok_of_translate (pt : PT) (v : Nat) (r : Nat × Nat × Nat)
    (h : translate pt v = .ok r) :
    (unmap pt v).1 = .ok () ∧ translate (unmap pt v).2 v = .error .notMapped := by
  unfold translate at h
  cases h0 : getEntry pt pt.root (idx 0 v) with
  | empty => rw [walkFrom_of_empty 2 h0] at h; simp at h
  | page p fl =>
    have hu : unmap pt v = (.ok (), clearEntry pt pt.root (idx 0 v)) := by
      simp only [unmap, h0]
    rw [hu]
    exact ⟨rfl, walkFrom_of_empty 2 (getEntry_clearEntry_self pt pt.root (idx 0 v))⟩
  | table f1 =>
    rw [walkFrom_of_table 1 h0] at h
    cases h1 : getEntry pt f1 (idx 1 v) with
    | empty => rw [walkFrom_of_empty 1 h1] at h; simp at h
    | page p fl =>
      by_cases hfe : frameEmpty (getFrame (clearEntry pt f1 (idx 1 v)) f1) = true
      · have hu : unmap pt v =
            (.ok (), clearEntry (delFrame (clearEntry pt f1 (idx 1 v)) f1) pt.root (idx 0 v)) := by
          simp only [unmap, h0, h1, hfe, if_true]
        rw [hu]
        exact ⟨rfl, walkFrom_of_empty 2 (getEntry_clearEntry_self _ pt.root (idx 0 v))⟩
      · have hu : unmap pt v = (.ok (), clearEntry pt f1 (idx 1 v)) := by
          simp only [unmap, h0, h1, hfe]
          rfl
        rw [hu]
        refine ⟨rfl, ?_⟩
        show walkFrom (clearEntry pt f1 (idx 1 v)) pt.root 0 2 v = .error .notMapped
        by_cases ha : f1 = pt.root
        · by_cases hb : idx 1 v = idx 0 v
          · apply walkFrom_of_empty
            rw [getEntry_clearEntry, if_pos ha, if_pos hb]
          · have he0 : getEntry (clearEntry pt f1 (idx 1 v)) pt.root (idx 0 v) = .table f1 := by
              rw [getEntry_clearEntry, if_pos ha, if_neg hb]; exact h0
            rw [walkFrom_of_table 1 he0]
            exact walkFrom_of_empty 1 (getEntry_clearEntry_self pt f1 (idx 1 v))
        · have he0 : getEntry (clearEntry pt f1 (idx 1 v)) pt.root (idx 0 v) = .table f1 := by
            rw [getEntry_clearEntry, if_neg ha]; exact h0
          rw [walkFrom_of_table 1 he0]
          exact walkFrom_of_empty 1 (getEntry_clearEntry_self pt f1 (idx 1 v))
    | table f2 =>
      rw [walkFrom_of_table 0 h1] at h
      cases h2 : getEntry pt f2 (idx 2 v) with
      | empty => rw [walkFrom_of_empty 0 h2] at h; simp at h
      | table f3 => rw [walkFrom_of_table_zero h2] at h; simp at h
      | page p fl =>
        by_cases hfe2 : frameEmpty (getFrame (clearEntry pt f2 (idx 2 v)) f2) = true
        · by_cases hfe1 : frameEmpty (getFrame (clearEntry (delFrame (clearEntry pt f2 (idx 2 v)) f2) f1 (idx 1 v)) f1) = true
          · have hu : unmap pt v =
                (.ok (), clearEntry (delFrame (clearEntry (delFrame (clearEntry pt f2 (idx 2 v)) f2) f1 (idx 1 v)) f1) pt.root (idx 0 v)) := by
              simp only [unmap, h0, h1, h2, hfe2, hfe1, if_true]
            rw [hu]
            exact ⟨rfl, walkFrom_of_empty 2 (getEntry_clearEntry_self _ pt.root (idx 0 v))⟩
          · have hu : unmap pt v =
                (.ok (), clearEntry (delFrame (clearEntry pt f2 (idx 2 v)) f2) f1 (idx 1 v)) := by
              simp only [unmap, h0, h1, h2, hfe2, hfe1, if_true]
              rfl
            rw [hu]
            refine ⟨rfl, ?_⟩
            show walkFrom (clearEntry (delFrame (clearEntry pt f2 (idx 2 v)) f2) f1 (idx 1 v)) pt.root 0 2 v = .error .notMapped
            by_cases ha : f1 = pt.root
            · by_cases hb : idx 1 v = idx 0 v
              · apply walkFrom_of_empty
                rw [getEntry_clearEntry, if_pos ha, if_pos hb]
              · by_cases hc : f2 = pt.root
                · apply walkFrom_of_empty
                  rw [getEntry_clearEntry, if_pos ha, if_neg hb, getEntry_delFrame, if_pos hc]
                · have he0 : getEntry (clearEntry (delFrame (clearEntry pt f2 (idx 2 v)) f2) f1 (idx 1 v)) pt.root (idx 0 v) = .table f1 := by
                    rw [getEntry_clearEntry, if_pos ha, if_neg hb, getEntry_delFrame, if_neg hc,
                      getEntry_clearEntry, if_neg hc]
                    exact h0
                  rw [walkFrom_of_table 1 he0]
                  exact walkFrom_of_empty 1 (getEntry_clearEntry_self _ f1 (idx 1 v))
            · by_cases hc : f2 = pt.root
              · apply walkFrom_of_empty
                rw [getEntry_clearEntry, if_neg ha, getEntry_delFrame, if_pos hc]
              · have he0 : getEntry (clearEntry (delFrame (clearEntry pt f2 (idx 2 v)) f2) f1 (idx 1 v)) pt.root (idx 0 v) = .table f1 := by
                  rw [getEntry_clearEntry, if_neg ha, getEntry_delFrame, if_neg hc,
                    getEntry_clearEntry, if_neg hc]
                  exact h0
                rw [walkFrom_of_table 1 he0]
                exact walkFrom_of_empty 1 (getEntry_clearEntry_self _ f1 (idx 1 v))
        · have hu : unmap pt v = (.ok (), clearEntry pt f2 (idx 2 v)) := by
            simp only [unmap, h0, h1, h2, hfe2]
            rfl
          rw [hu]
          refine ⟨rfl, ?_⟩
          show walkFrom (clearEntry pt f2 (idx 2 v)) pt.root 0 2 v = .error .notMapped
          by_cases ha : f2 = pt.root
          · by_cases hb : idx 2 v = idx 0 v
            · apply walkFrom_of_empty
              rw [getEntry_clearEntry, if_pos ha, if_pos hb]
            · have he0 : getEntry (clearEntry pt f2 (idx 2 v)) pt.root (idx 0 v) = .table f1 := by
                rw [getEntry_clearEntry, if_pos ha, if_neg hb]; exact h0
              rw [walkFrom_of_table 1 he0]
              by_cases hc : f2 = f1
              · by_cases hd : idx 2 v = idx 1 v
                · apply walkFrom_of_empty
                  rw [getEntry_clearEntry, if_pos hc, if_pos hd]
                · have he1 : getEntry (clearEntry pt f2 (idx 2 v)) f1 (idx 1 v) = .table f2 := by
                    rw [getEntry_clearEntry, if_pos hc, if_neg hd]; exact h1
                  rw [walkFrom_of_table 0 he1]
                  exact walkFrom_of_empty 0 (getEntry_clearEntry_self pt f2 (idx 2 v))
              · have he1 : getEntry (clearEntry pt f2 (idx 2 v)) f1 (idx 1 v) = .table f2 := by
                  rw [getEntry_clearEntry, if_neg hc]; exact h1
                rw [walkFrom_of_table 0 he1]
                exact walkFrom_of_empty 0 (getEntry_clearEntry_self pt f2 (idx 2 v))
          · have he0 : getEntry (clearEntry pt f2 (idx 2 v)) pt.root (idx 0 v) = .table f1 := by
              rw [getEntry_clearEntry, if_neg ha]; exact h0
            rw [walkFrom_of_table 1 he0]
            by_cases hc : f2 = f1
            · by_cases hd : idx 2 v = idx 1 v
              · apply walkFrom_of_empty
                rw [getEntry_clearEntry, if_pos hc, if_pos hd]
              · have he1 : getEntry (clearEntry pt f2 (idx 2 v)) f1 (idx 1 v) = .table f2 := by
                  rw [getEntry_clearEntry, if_pos hc, if_neg hd]; exact h1
                rw [walkFrom_of_table 0 he1]
                exact walkFrom_of_empty 0 (getEntry_clearEntry_self pt f2 (idx 2 v))
            · have he1 : getEntry (clearEntry pt f2 (idx 2 v)) f1 (idx 1 v) = .table f2 := by
                rw [getEntry_clearEntry, if_neg hc]; exact h1
              rw [walkFrom_of_table 0 he1]
              exact walkFrom_of_empty 0 (getEntry_clearEntry_self pt f2 (idx 2 v))

/-! ## Claim theorems about the walker -/

/-- C1: for every `(vaddr, paddr, flags, size)` with both addresses aligned
to `size`, both inside the architecture's `VA_MAX_BITS`/`PA_MAX_BITS`
bounds and `size` a supported granularity, a successful
`map(vaddr, paddr, flags, size)` followed by `translate(vaddr)` returns
exactly `(paddr, flags, size)`.  (The walker is modelled from the spec;
the table state is any well-formed one.) -/
theorem map_translate_roundtrip (pt : PT) (v p fl sz : Nat)
    (hwf : WF pt)
    (hv : v % sz = 0) (hp : p % sz = 0)
    (hvb : v < 2 ^ LA64MetaData.VA_MAX_BITS) (hpb : p < 2 ^ LA64MetaData.PA_MAX_BITS)
    (hsz : (sizeLevel sz).isSome = true)
    (hok : (map pt v p fl sz).1 = .ok ()) :
    translate (map pt v p fl sz).2 v = .ok (p, fl, sz) := by
  obtain ⟨t, hs⟩ := Option.isSome_iff_exists.1 hsz
  obtain ⟨ht2, hszt⟩ := sizeLevel_inv hs
  have hmw := @map_eq_mapWalk pt v p fl sz t hs hv hp
  rw [hmw] at hok ⊢
  have hpair : mapWalk pt pt.root 0 t v p fl = (.ok (), (mapWalk pt pt.root 0 t v p fl).2) := by
    rw [← hok]
  have hchar := mapWalk_ok t pt (mapWalk pt pt.root 0 t v p fl).2 pt.root 0 v p fl v hwf hwf.1
    hpair (fun j hj1 hj2 => rfl)
  simp only [Nat.zero_add] at hchar
  rw [← hszt, hv, Nat.add_zero] at hchar
  obtain ⟨-, -, hroot, -⟩ := mapWalk_preserves t pt pt.root 0 v p fl hwf hwf.1
  unfold translate
  rw [hroot]
  exact walkFrom_mono t _ pt.root 0 2 v hchar ht2

/-- C1 witness: on a fresh table, mapping the base page `0x1000 ↦ 0x5000`
with flags 3 and translating it back yields exactly `(0x5000, 3, 0x1000)`. -/
theorem map_translate_roundtrip_witness :
    translate (map PT.empty 4096 20480 3 4096).2 4096 = .ok (20480, 3, 4096) :=
  map_translate_roundtrip PT.empty 4096 20480 3 4096 (by decide) (by decide) (by decide)
    (by decide) (by decide) (by decide) (by decide)

/-- C2: `map` of a range that overlaps an existing mapping (some address
`w` of the requested range already translates) fails with `AlreadyMapped`
and leaves the table state — hence every existing translation — unchanged. -/
theorem map_overlap_fails (pt : PT) (v p fl sz w : Nat) (r : Nat × Nat × Nat)
    (hv : v % sz = 0) (hp : p % sz = 0)
    (hsz : (sizeLevel sz).isSome = true)
    (hw1 : v ≤ w) (hw2 : w < v + sz)
    (hmapped : translate pt w = .ok r) :
    map pt v p fl sz = (.error .alreadyMapped, pt) ∧
    (∀ u, translate (map pt v p fl sz).2 u = translate pt u) := by
  obtain ⟨t, hs⟩ := Option.isSome_iff_exists.1 hsz
  obtain ⟨ht2, hszt⟩ := sizeLevel_inv hs
  have hsz2 : sz = 2 ^ levelShift t := hszt
  have hmw := @map_eq_mapWalk pt v p fl sz t hs hv hp
  obtain ⟨o, rfl⟩ : ∃ o, w = v + o := ⟨w - v, by omega⟩
  have ho : o < sz := by omega
  have hidx : ∀ j, 0 ≤ j → j ≤ 0 + t → idx j (v + o) = idx j v := by
    intro j hj1 hj2
    apply idx_add_aligned j (s := levelShift t)
    · rw [← hsz2]; exact hv
    · rw [← hsz2]; exact ho
    · exact levelShift_le (by omega) ht2
  have hconf := walkFrom_conflict t pt pt.root 0 2 v p fl (v + o) r hmapped ht2 hidx
  rw [hmw, hconf]
  exact ⟨rfl, fun u => rfl⟩

/-- C2 witness: with `0x1000 ↦ 0x5000` mapped, mapping the 2 MiB huge page
at 0 (whose range contains `0x1000`) fails `AlreadyMapped` and the old
translation is untouched. -/
theorem map_overlap_fails_witness :
    map (map PT.empty 4096 20480 3 4096).2 0 2097152 7 2097152 =
      (.error .alreadyMapped, (map PT.empty 4096 20480 3 4096).2) ∧
    translate (map (map PT.empty 4096 20480 3 4096).2 0 2097152 7 2097152).2 4096 =
      translate (map PT.empty 4096 20480 3 4096).2 4096 :=
  ⟨(map_overlap_fails (map PT.empty 4096 20480 3 4096).2 0 2097152 7 2097152 4096
      (20480, 3, 4096) (by decide) (by decide) (by decide) (by decide) (by decide)
      (by decide)).1,
   (map_overlap_fails (map PT.empty 4096 20480 3 4096).2 0 2097152 7 2097152 4096
      (20480, 3, 4096) (by decide) (by decide) (by decide) (by decide) (by decide)
      (by decide)).2 4096⟩

/-- C3: (a) after a successful `map` of `vaddr`, `unmap(vaddr)` succeeds
and a subsequent `translate(vaddr)` fails `NotMapped`; (b) `unmap(vaddr)`
itself fails `NotMapped` whenever a level along the walk path is empty or
the entry at the resolved level is already empty, leaving the state
untouched. -/
theorem map_unmap_roundtrip :
    (∀ (pt : PT) (v p fl sz : Nat), WF pt → (map pt v p fl sz).1 = .ok () →
      (unmap (map pt v p fl sz).2 v).1 = .ok () ∧
      translate (unmap (map pt v p fl sz).2 v).2 v = .error .notMapped) ∧
    (∀ (pt : PT) (v : Nat), pathEmpty pt v →
      unmap pt v = (.error .notMapped, pt)) := by
  constructor
  · intro pt v p fl sz hwf hok
    obtain ⟨t, hs, hv, hp⟩ := map_ok_inv hok
    obtain ⟨ht2, hszt⟩ := sizeLevel_inv hs
    have hmw := @map_eq_mapWalk pt v p fl sz t hs hv hp
    rw [hmw] at hok ⊢
    have hpair : mapWalk pt pt.root 0 t v p fl = (.ok (), (mapWalk pt pt.root 0 t v p fl).2) := by
      rw [← hok]
    have hchar := mapWalk_ok t pt (mapWalk pt pt.root 0 t v p fl).2 pt.root 0 v p fl v hwf hwf.1
      hpair (fun j hj1 hj2 => rfl)
    obtain ⟨-, -, hroot, -⟩ := mapWalk_preserves t pt pt.root 0 v p fl hwf hwf.1
    have htr : translate (mapWalk pt pt.root 0 t v p fl).2 v =
        .ok (p + v % levelSize (0 + t), fl, levelSize (0 + t)) := by
      unfold translate
      rw [hroot]
      exact walkFrom_mono t _ pt.root 0 2 v hchar (by omega)
    exact unmap_ok_of_translate _ v _ htr
  · intro pt v h
    exact unmap_of_pathEmpty h

/-- C3 witness: mapping then unmapping `0x1000` on a fresh table succeeds
and leaves `0x1000` unmapped; unmapping the never-mapped `0x2000` on the
fresh table fails `NotMapped` without touching the table. -/
theorem map_unmap_roundtrip_witness :
    ((unmap (map PT.empty 4096 20480 3 4096).2 4096).1 = .ok () ∧
      translate (unmap (map PT.empty 4096 20480 3 4096).2 4096).2 4096 = .error .notMapped) ∧
    unmap PT.empty 8192 = (.error .notMapped, PT.empty) :=
  ⟨map_unmap_roundtrip.1 PT.empty 4096 20480 3 4096 (by decide) (by decide),
   map_unmap_roundtrip.2 PT.empty 8192 (Or.inl (by decide))⟩

/-- C4: for a huge mapping `(vaddr, paddr, flags, size)` installed at an
intermediate level (`size` one of the two huge granularities) and any
offset `o < size`, `translate(vaddr + o)` returns `paddr + o` with the same
flags and the same huge page size. -/
theorem map_huge_offset (pt : PT) (v p fl sz o : Nat)
    (hwf : WF pt)
    (hhuge : sz = levelSize 0 ∨ sz = levelSize 1)
    (hok : (map pt v p fl sz).1 = .ok ())
    (ho : o < sz) :
    translate (map pt v p fl sz).2 (v + o) = .ok (p + o, fl, sz) := by
  obtain ⟨t, hs, hv, hp⟩ := map_ok_inv hok
  obtain ⟨ht2, hszt⟩ := sizeLevel_inv hs
  have hsz2 : sz = 2 ^ levelShift t := hszt
  have hmw := @map_eq_mapWalk pt v p fl sz t hs hv hp
  rw [hmw] at hok ⊢
  have hpair : mapWalk pt pt.root 0 t v p fl = (.ok (), (mapWalk pt pt.root 0 t v p fl).2) := by
    rw [← hok]
  have hidx : ∀ j, 0 ≤ j → j ≤ 0 + t → idx j (v + o) = idx j v := by
    intro j hj1 hj2
    apply idx_add_aligned j (s := levelShift t)
    · rw [← hsz2]; exact hv
    · rw [← hsz2]; exact ho
    · exact levelShift_le (by omega) ht2
  have hchar := mapWalk_ok t pt (mapWalk pt pt.root 0 t v p fl).2 pt.root 0 v p fl (v + o)
    hwf hwf.1 hpair hidx
  simp only [Nat.zero_add] at hchar
  rw [← hszt] at hchar
  have hmod : (v + o) % sz = o := by
    rw [hsz2]
    exact add_mod_of_aligned (by rw [← hsz2]; exact hv) (by rw [← hsz2]; exact ho)
  rw [hmod] at hchar
  obtain ⟨-, -, hroot, -⟩ := mapWalk_preserves t pt pt.root 0 v p fl hwf hwf.1
  unfold translate
  rw [hroot]
  exact walkFrom_mono t _ pt.root 0 2 (v + o) hchar ht2

/-- C4 witness: the 2 MiB huge mapping `0x200000 ↦ 0x40000000` with flags 7
translates `0x200000 + 0x1234` to `0x40000000 + 0x1234` with the same
flags and size. -/
theorem map_huge_offset_witness :
    translate (map PT.empty 2097152 1073741824 7 2097152).2 (2097152 + 4660) =
      .ok (1073741824 + 4660, 7, 2097152) :=
  map_huge_offset PT.empty 2097152 1073741824 7 2097152 4660 (by decide)
    (Or.inr (by decide)) (by decide) (by decide)

/-! ## Pruning (C9) -/

theorem frames_clearEntry (pt : PT) (f i : Nat) :
    (clearEntry pt f i).frames = alSet pt.frames f (setE (getFrame pt f) i .empty) := rfl

theorem frames_delFrame (pt : PT) (f : Nat) :
    (delFrame pt f).frames = alDel pt.frames f := rfl

theorem getFrame_clearEntry (pt : PT) (f i g : Nat) :
    getFrame (clearEntry pt f i) g =
      if f = g then setE (getFrame pt f) i .empty else getFrame pt g :=
  getFrame_setEntry pt f i g .empty

/-- C9: after `unmap` clears the leaf for `v` (walk path root → `f1` →
`f2` → leaf, with the spec's tree-ownership invariants), each intermediate
frame on the path whose entries have become all empty is freed via the
Hardware Handler model with its parent's entry cleared, frame by frame:
the emptied leaf-adjacent frame `f2` is always freed, left unreferenced,
and its parent entry in `f1` cleared; `f1` in turn is freed — emptying the
root entry of the path — exactly when clearing its `f2` entry left it
empty, and otherwise stays in place with its other entries intact and the
root entry still pointing at it. -/
theorem unmap_prunes (pt : PT) (v f1 f2 p fl : Nat)
    (hkeys : (pt.frames.map Prod.fst).Nodup)
    (hidx : ∀ q ∈ pt.frames, (q.2.map Prod.fst).Nodup)
    (h0 : getEntry pt pt.root (idx 0 v) = .table f1)
    (h1 : getEntry pt f1 (idx 1 v) = .table f2)
    (h2 : getEntry pt f2 (idx 2 v) = .page p fl)
    (hne1 : pt.root ≠ f1) (hne2 : pt.root ≠ f2) (hne3 : f1 ≠ f2)
    (hemp2 : frameEmpty (setE (getFrame pt f2) (idx 2 v) .empty) = true)
    (href1 : onlyRef pt f1 pt.root (idx 0 v))
    (href2 : onlyRef pt f2 f1 (idx 1 v)) :
    (unmap pt v).1 = .ok () ∧
    (∀ q ∈ (unmap pt v).2.frames, q.1 ≠ f2) ∧
    (∀ q ∈ (unmap pt v).2.frames, ∀ r ∈ q.2, r.2 ≠ .table f2) ∧
    getEntry (unmap pt v).2 f1 (idx 1 v) = .empty ∧
    (frameEmpty (setE (getFrame pt f1) (idx 1 v) .empty) = true →
      (∀ q ∈ (unmap pt v).2.frames, q.1 ≠ f1) ∧
      (∀ q ∈ (unmap pt v).2.frames, ∀ r ∈ q.2, r.2 ≠ .table f1) ∧
      getEntry (unmap pt v).2 pt.root (idx 0 v) = .empty) ∧
    (frameEmpty (setE (getFrame pt f1) (idx 1 v) .empty) = false →
      getEntry (unmap pt v).2 pt.root (idx 0 v) = .table f1 ∧
      (∀ j, j ≠ idx 1 v → getEntry (unmap pt v).2 f1 j = getEntry pt f1 j)) := by
  have hne3' : f2 ≠ f1 := Ne.symm hne3
  have hne1' : f1 ≠ pt.root := Ne.symm hne1
  have hne2' : f2 ≠ pt.root := Ne.symm hne2
  have hfe2 : frameEmpty (getFrame (clearEntry pt f2 (idx 2 v)) f2) = true := by
    rw [getFrame_clearEntry, if_pos rfl]
    exact hemp2
  have hnodP1 : (((clearEntry pt f2 (idx 2 v)).frames).map Prod.fst).Nodup := by
    rw [frames_clearEntry]
    exact keys_nodup_alSet hkeys
  have hnodX1 : (((delFrame (clearEntry pt f2 (idx 2 v)) f2).frames).map Prod.fst).Nodup := by
    rw [frames_delFrame]
    exact keys_nodup_alDel hnodP1
  have hgf1 : getFrame (delFrame (clearEntry pt f2 (idx 2 v)) f2) f1 = getFrame pt f1 := by
    rw [getFrame_delFrame, if_neg hne3', getFrame_clearEntry, if_neg hne3']
  cases hemp1 : frameEmpty (setE (getFrame pt f1) (idx 1 v) .empty) with
  | true =>
    have hfe1 : frameEmpty (getFrame (clearEntry (delFrame (clearEntry pt f2 (idx 2 v)) f2) f1
        (idx 1 v)) f1) = true := by
      rw [getFrame_clearEntry, if_pos rfl, hgf1]
      exact hemp1
    have hu : unmap pt v = (.ok (),
        clearEntry (delFrame (clearEntry (delFrame (clearEntry pt f2 (idx 2 v)) f2) f1 (idx 1 v))
          f1) pt.root (idx 0 v)) := by
      simp only [unmap, h0, h1, h2, hfe2, hfe1, if_true]
    have hnodP2 : (((clearEntry (delFrame (clearEntry pt f2 (idx 2 v)) f2) f1
        (idx 1 v)).frames).map Prod.fst).Nodup := by
      rw [frames_clearEntry]
      exact keys_nodup_alSet hnodX1
    have hnodX2 : (((delFrame (clearEntry (delFrame (clearEntry pt f2 (idx 2 v)) f2) f1 (idx 1 v))
        f1).frames).map Prod.fst).Nodup := by
      rw [frames_delFrame]
      exact keys_nodup_alDel hnodP2
    have hgr : getFrame (delFrame (clearEntry (delFrame (clearEntry pt f2 (idx 2 v)) f2) f1
        (idx 1 v)) f1) pt.root = getFrame pt pt.root := by
      rw [getFrame_delFrame, if_neg hne1', getFrame_clearEntry, if_neg hne1',
        getFrame_delFrame, if_neg hne2', getFrame_clearEntry, if_neg hne2']
    have hmem : ∀ q, q ∈ (clearEntry (delFrame (clearEntry (delFrame (clearEntry pt f2 (idx 2 v))
        f2) f1 (idx 1 v)) f1) pt.root (idx 0 v)).frames →
        (q ∈ pt.frames ∧ q.1 ≠ pt.root ∧ q.1 ≠ f1 ∧ q.1 ≠ f2) ∨
        q = (pt.root, setE (getFrame pt pt.root) (idx 0 v) .empty) := by
      intro q hq
      rw [frames_clearEntry, hgr] at hq
      rcases mem_alSet_of_nodup hnodX2 hq with ⟨hq1, hq2⟩ | hq1
      · rw [frames_delFrame] at hq1
        obtain ⟨hq1, hq3⟩ := mem_alDel hq1
        rw [frames_clearEntry] at hq1
        rcases mem_alSet_weak hq1 with hq1 | hq1
        · rw [frames_delFrame] at hq1
          obtain ⟨hq1, hq4⟩ := mem_alDel hq1
          rw [frames_clearEntry] at hq1
          rcases mem_alSet_weak hq1 with hq1 | hq1
          · exact Or.inl ⟨hq1, hq2, hq3, hq4⟩
          · exact absurd (congrArg Prod.fst hq1) hq4
        · exact absurd (congrArg Prod.fst hq1) hq3
      · exact Or.inr hq1
    refine ⟨by rw [hu], ?_, ?_, ?_, ?_, ?_⟩
    · intro q hq
      rw [hu] at hq
      rcases hmem q hq with ⟨-, -, -, hc⟩ | rfl
      · exact hc
      · exact hne2
    · intro q hq r hr
      rw [hu] at hq
      rcases hmem q hq with ⟨hqmem, hqr, hq1, hq2⟩ | rfl
      · intro hcon
        obtain ⟨h1', -⟩ := href2 q hqmem r hr hcon
        exact hq1 h1'
      · rcases alGet_mem (show alGet [] pt.frames pt.root = getFrame pt pt.root from rfl)
          with hr0 | hr0
        · rw [hr0] at hr
          have hre : r = (idx 0 v, Entry.empty) := by
            have hr' : r ∈ alSet ([] : Frame) (idx 0 v) Entry.empty := hr
            simpa [alSet] using hr'
          rw [hre]
          simp
        · have hrn := hidx _ hr0
          have hr' : r ∈ alSet (getFrame pt pt.root) (idx 0 v) Entry.empty := hr
          rcases mem_alSet_of_nodup hrn hr' with ⟨hr1, hr2⟩ | rfl
          · intro hcon
            obtain ⟨h1', -⟩ := href2 (pt.root, getFrame pt pt.root) hr0 r hr1 hcon
            exact hne1 h1'
          · simp
    · rw [hu]
      rw [getEntry_clearEntry, if_neg hne1, getEntry_delFrame, if_pos rfl]
    · intro _
      refine ⟨?_, ?_, ?_⟩
      · intro q hq
        rw [hu] at hq
        rcases hmem q hq with ⟨-, -, hb, -⟩ | rfl
        · exact hb
        · exact hne1
      · intro q hq r hr
        rw [hu] at hq
        rcases hmem q hq with ⟨hqmem, hqr, hq1, hq2⟩ | rfl
        · intro hcon
          obtain ⟨h1', -⟩ := href1 q hqmem r hr hcon
          exact hqr h1'
        · rcases alGet_mem (show alGet [] pt.frames pt.root = getFrame pt pt.root from rfl)
            with hr0 | hr0
          · rw [hr0] at hr
            have hre : r = (idx 0 v, Entry.empty) := by
              have hr' : r ∈ alSet ([] : Frame) (idx 0 v) Entry.empty := hr
              simpa [alSet] using hr'
            rw [hre]
            simp
          · have hrn := hidx _ hr0
            have hr' : r ∈ alSet (getFrame pt pt.root) (idx 0 v) Entry.empty := hr
            rcases mem_alSet_of_nodup hrn hr' with ⟨hr1, hr2⟩ | rfl
            · intro hcon
              obtain ⟨-, h2'⟩ := href1 (pt.root, getFrame pt pt.root) hr0 r hr1 hcon
              exact hr2 h2'
            · simp
      · rw [hu]
        exact getEntry_clearEntry_self _ pt.root (idx 0 v)
    · intro hfalse
      exact Bool.noConfusion hfalse
  | false =>
    have hfe1x : frameEmpty (getFrame (clearEntry (delFrame (clearEntry pt f2 (idx 2 v)) f2) f1
        (idx 1 v)) f1) = false := by
      rw [getFrame_clearEntry, if_pos rfl, hgf1]
      exact hemp1
    have hu : unmap pt v = (.ok (),
        clearEntry (delFrame (clearEntry pt f2 (idx 2 v)) f2) f1 (idx 1 v)) := by
      simp only [unmap, h0, h1, h2, hfe2, hfe1x]
      rfl
    have hmem2 : ∀ q, q ∈ (clearEntry (delFrame (clearEntry pt f2 (idx 2 v)) f2) f1
        (idx 1 v)).frames →
        (q ∈ pt.frames ∧ q.1 ≠ f1 ∧ q.1 ≠ f2) ∨
        q = (f1, setE (getFrame pt f1) (idx 1 v) .empty) := by
      intro q hq
      rw [frames_clearEntry, hgf1] at hq
      rcases mem_alSet_of_nodup hnodX1 hq with ⟨hq1, hq2⟩ | hq1
      · rw [frames_delFrame] at hq1
        obtain ⟨hq1, hq3⟩ := mem_alDel hq1
        rw [frames_clearEntry] at hq1
        rcases mem_alSet_weak hq1 with hq1 | hq1
        · exact Or.inl ⟨hq1, hq2, hq3⟩
        · exact absurd (congrArg Prod.fst hq1) hq3
      · exact Or.inr hq1
    refine ⟨by rw [hu], ?_, ?_, ?_, ?_, ?_⟩
    · intro q hq
      rw [hu] at hq
      rcases hmem2 q hq with ⟨-, -, hc⟩ | rfl
      · exact hc
      · exact hne3
    · intro q hq r hr
      rw [hu] at hq
      rcases hmem2 q hq with ⟨hqmem, hq1, hq2⟩ | rfl
      · intro hcon
        obtain ⟨h1', -⟩ := href2 q hqmem r hr hcon
        exact hq1 h1'
      · rcases alGet_mem (show alGet [] pt.frames f1 = getFrame pt f1 from rfl) with hf10 | hf10
        · exfalso
          have h1' : alGet Entry.empty (getFrame pt f1) (idx 1 v) = Entry.table f2 := h1
          rw [hf10] at h1'
          simp [alGet] at h1'
        · have hfn := hidx _ hf10
          have hr' : r ∈ alSet (getFrame pt f1) (idx 1 v) Entry.empty := hr
          rcases mem_alSet_of_nodup hfn hr' with ⟨hr1, hr2⟩ | rfl
          · intro hcon
            obtain ⟨-, h2'⟩ := href2 (f1, getFrame pt f1) hf10 r hr1 hcon
            exact hr2 h2'
          · simp
    · rw [hu]
      exact getEntry_clearEntry_self _ f1 (idx 1 v)
    · intro hcon
      exact Bool.noConfusion hcon
    · intro _
      constructor
      · rw [hu]
        rw [getEntry_clearEntry, if_neg hne1', getEntry_delFrame, if_neg hne2',
          getEntry_clearEntry, if_neg hne2']
        exact h0
      · intro j hj
        rw [hu]
        rw [getEntry_clearEntry, if_pos rfl, if_neg (fun hh => hj hh.symm),
          getEntry_delFrame, if_neg hne3', getEntry_clearEntry, if_neg hne3']

/-- C9 witness: on `prunePT` (a single-leaf table) unmapping `0x1000`
frees the whole chain and empties the root entry; on `prunePT2` (whose
middle frame keeps a second child) the same unmap clears the parent entry
inside frame 1 while the root entry still points at frame 1. -/
theorem unmap_prunes_witness :
    ((unmap prunePT 4096).1 = .ok () ∧
      getEntry (unmap prunePT 4096).2 prunePT.root (idx 0 4096) = .empty) ∧
    ((unmap prunePT2 4096).1 = .ok () ∧
      getEntry (unmap prunePT2 4096).2 1 (idx 1 4096) = .empty ∧
      getEntry (unmap prunePT2 4096).2 prunePT2.root (idx 0 4096) = .table 1) :=
  ⟨⟨(unmap_prunes prunePT 4096 1 2 20480 3 (by decide) (by decide) (by decide) (by decide)
        (by decide) (by decide) (by decide) (by decide) (by decide) (by decide)
        (by decide)).1,
    ((unmap_prunes prunePT 4096 1 2 20480 3 (by decide) (by decide) (by decide) (by decide)
        (by decide) (by decide) (by decide) (by decide) (by decide) (by decide)
        (by decide)).2.2.2.2.1 (by decide)).2.2⟩,
   ⟨(unmap_prunes prunePT2 4096 1 2 20480 3 (by decide) (by decide) (by decide) (by decide)
        (by decide) (by decide) (by decide) (by decide) (by decide) (by decide)
        (by decide)).1,
    (unmap_prunes prunePT2 4096 1 2 20480 3 (by decide) (by decide) (by decide) (by decide)
        (by decide) (by decide) (by decide) (by decide) (by decide) (by decide)
        (by decide)).2.2.2.1,
    ((unmap_prunes prunePT2 4096 1 2 20480 3 (by decide) (by decide) (by decide) (by decide)
        (by decide) (by decide) (by decide) (by decide) (by decide) (by decide)
        (by decide)).2.2.2.2.2 (by decide)).1⟩⟩

end PageTable64
